import Mathlib

/-
Verification of the spatial sampling and batching engine of the SensatUrban
dataset pipeline (src/datasets/tf_sensaturban_dataset.py), as a shallow
embedding in Lean 4.

Machine floats of the source are embedded as rationals (ℚ); numpy arrays as
lists; the KD-tree radius query as a linear scan returning the indices of all
points within the query radius.  Randomness (noise draws, random subsampling
choices) is passed in explicitly as parameters, so every definition below is
a deterministic function of the program state plus the drawn random values,
exactly as the Python code is once its calls into `np.random` are fixed.
-/

set_option maxRecDepth 4000

namespace SensatUrban

/-! ## Geometry: points and squared distances -/

/-- A 3-D point, as a triple of rationals (embedding the float coordinates). -/
abbrev Vec3 := ℚ × ℚ × ℚ

def vzero : Vec3 := (0, 0, 0)

def vadd (a b : Vec3) : Vec3 := (a.1 + b.1, a.2.1 + b.2.1, a.2.2 + b.2.2)

def vsub (a b : Vec3) : Vec3 := (a.1 - b.1, a.2.1 - b.2.1, a.2.2 - b.2.2)

/-- Squared Euclidean norm: `np.sum(np.square(v))` for a 3-vector. -/
def sqNorm (a : Vec3) : ℚ := a.1 * a.1 + a.2.1 * a.2.1 + a.2.2 * a.2.2

/-- Squared Euclidean distance between two points. -/
def sqDist (a b : Vec3) : ℚ := sqNorm (vsub a b)

/-! ## PotentialField update (spatially_regular_gen, lines 331-336)

`tukeys = np.square(1 - dists / np.square(self.in_radius))`
`tukeys[dists > np.square(self.in_radius)] = 0`
`self.potentials[split][cloud_ind][input_inds] += tukeys`
`self.min_potentials[split][cloud_ind] = float(np.min(...))` -/

/-- The Tukey biweight added to the potential of a returned point at squared
distance `d2` from the pick point, for query radius `r`: the code computes
`(1 - d2 / r²)²` and then overwrites the entries with `d2 > r²` by `0`. -/
def tukey (r d2 : ℚ) : ℚ :=
  if d2 > r * r then 0 else (1 - d2 / (r * r)) ^ 2

/-- `potentials[cloud_ind][input_inds] += tukeys`: each queried index receives
the Tukey weight of its squared distance to the pick point; other indices are
unchanged.  (`query_radius` returns each index at most once, so the numpy
fancy-indexed `+=` adds exactly one weight per queried index.) -/
def updatePotentials (pot : List ℚ) (points : List Vec3) (pick : Vec3)
    (r : ℚ) (inds : List ℕ) : List ℚ :=
  pot.mapIdx (fun i p =>
    if i ∈ inds then p + tukey r (sqDist (points.getD i vzero) pick) else p)

/-- `np.min` of a potential array (the cached per-cloud minimum). -/
def minPotential : List ℚ → ℚ
  | [] => 0
  | x :: xs => xs.foldl min x

/-- One potential-update of a region draw, paired with the recomputation of the
cached per-cloud minimum (lines 335-336). -/
def drawStep (pot : List ℚ) (points : List Vec3) (pick : Vec3)
    (r : ℚ) (inds : List ℕ) : List ℚ × ℚ :=
  let pot2 := updatePotentials pot points pick r inds
  (pot2, minPotential pot2)

/-- The random data of one region draw, as seen by the potential update:
the (noise-perturbed) pick point, the query radius, and the indices the radius
query returned. -/
structure PassDraw where
  pick : Vec3
  r : ℚ
  inds : List ℕ

/-- A generation pass: the successive potential updates of a sequence of
region draws over one cloud. -/
def runPass (pot : List ℚ) (points : List Vec3) : List PassDraw → List ℚ
  | [] => pot
  | d :: ds => runPass (updatePotentials pot points d.pick d.r d.inds) points ds

/-! ### Helper lemmas for the potential update -/

lemma mapIdx_go_length {α : Type} (f : ℕ → α → α) :
    ∀ (l : List α) (acc : Array α),
      (List.mapIdx.go f l acc).length = acc.size + l.length := by
  intro l
  induction l with
  | nil => intro acc; simp [List.mapIdx.go]
  | cons a t ih =>
      intro acc
      simp [List.mapIdx.go, ih]
      omega

lemma length_mapIdx' {α : Type} (f : ℕ → α → α) (l : List α) :
    (l.mapIdx f).length = l.length := by
  simp [List.mapIdx, mapIdx_go_length]

lemma mapIdx_cons' {α : Type} (f : ℕ → α → α) (a : α) (l : List α) :
    (a :: l).mapIdx f = f 0 a :: l.mapIdx (fun i x => f (i + 1) x) := by
  simp [List.mapIdx_cons]

lemma mapIdx_getD {α : Type} (d : α) :
    ∀ (l : List α) (f : ℕ → α → α) (i : ℕ), i < l.length →
      (l.mapIdx f).getD i d = f i (l.getD i d) := by
  intro l
  induction l with
  | nil => intro f i hi; simp at hi
  | cons a t ih =>
      intro f i hi
      rw [mapIdx_cons']
      cases i with
      | zero => simp
      | succ j =>
          simp only [List.getD_cons_succ]
          exact ih (fun i x => f (i + 1) x) j (by simpa using hi)

lemma updatePotentials_length (pot : List ℚ) (points : List Vec3)
    (pick : Vec3) (r : ℚ) (inds : List ℕ) :
    (updatePotentials pot points pick r inds).length = pot.length := by
  simp [updatePotentials, length_mapIdx']

lemma tukey_nonneg (r d2 : ℚ) : 0 ≤ tukey r d2 := by
  unfold tukey
  split
  · exact le_refl 0
  · exact sq_nonneg _

lemma updatePotentials_getD_le (pot : List ℚ) (points : List Vec3)
    (pick : Vec3) (r : ℚ) (inds : List ℕ) (i : ℕ) :
    pot.getD i 0 ≤ (updatePotentials pot points pick r inds).getD i 0 := by
  by_cases hi : i < pot.length
  · have h := mapIdx_getD (α := ℚ) 0 pot
      (fun i p => if i ∈ inds then p + tukey r (sqDist (points.getD i vzero) pick) else p) i hi
    unfold updatePotentials
    rw [h]
    by_cases hmem : i ∈ inds
    · simp only [hmem, if_pos]
      exact le_add_of_nonneg_right (tukey_nonneg _ _)
    · simp [hmem]
  · have h1 : pot.getD i 0 = 0 := by
      rw [List.getD_eq_getElem?_getD]
      rw [List.getElem?_eq_none (by omega)]
      rfl
    have h2 : (updatePotentials pot points pick r inds).getD i 0 = 0 := by
      rw [List.getD_eq_getElem?_getD]
      rw [List.getElem?_eq_none (by rw [updatePotentials_length]; omega)]
      rfl
    rw [h1, h2]

lemma runPass_getD_le (points : List Vec3) :
    ∀ (ds : List PassDraw) (pot : List ℚ) (i : ℕ),
      pot.getD i 0 ≤ (runPass pot points ds).getD i 0 := by
  intro ds
  induction ds with
  | nil => intro pot i; simp [runPass]
  | cons d t ih =>
      intro pot i
      calc pot.getD i 0
          ≤ (updatePotentials pot points d.pick d.r d.inds).getD i 0 :=
            updatePotentials_getD_le pot points d.pick d.r d.inds i
        _ ≤ (runPass (updatePotentials pot points d.pick d.r d.inds) points t).getD i 0 :=
            ih _ i

/-! ## Neighbor-limit calibration percentile (calibrate_neighbors, lines 698-701)

`cumsum = np.cumsum(neighb_hists.T, axis=0)`
`percentiles = np.sum(cumsum < (keep_ratio * cumsum[hist_n - 1, :]), axis=0)` -/

/-- Running cumulative sums starting from `acc` (`np.cumsum` is `cumsumFrom 0`). -/
def cumsumFrom (acc : ℕ) : List ℕ → List ℕ
  | [] => []
  | x :: xs => (acc + x) :: cumsumFrom (acc + x) xs

/-- `np.cumsum` of one layer's histogram of neighbor counts. -/
def cumsum (l : List ℕ) : List ℕ := cumsumFrom 0 l

/-- The per-layer neighbor-count limit chosen by `calibrate_neighbors`: the
number of histogram buckets whose cumulative mass is strictly below
`keep_ratio` times the total mass (`cumsum[hist_n - 1]` is the last entry). -/
def calibPercentile (hist : List ℕ) (keep : ℚ) : ℕ :=
  (cumsum hist).countP
    (fun c : ℕ => decide ((c : ℚ) < keep * (((cumsum hist).getLastD 0 : ℕ) : ℚ)))

/-- The whole output of `calibrate_neighbors`: one limit per layer, from that
layer's histogram (line 699 computes all columns at once). -/
def calibrateNeighborsLimits (hists : List (List ℕ)) (keep : ℚ) : List ℕ :=
  hists.map (fun h => calibPercentile h keep)

/-! ### Helper lemmas for the percentile computation -/

lemma cumsumFrom_length : ∀ (l : List ℕ) (acc : ℕ),
    (cumsumFrom acc l).length = l.length := by
  intro l
  induction l with
  | nil => intro acc; simp [cumsumFrom]
  | cons x t ih => intro acc; simp [cumsumFrom, ih]

lemma cumsumFrom_getLastD' : ∀ (l : List ℕ) (acc d : ℕ), l ≠ [] →
    (cumsumFrom acc l).getLastD d = acc + l.sum := by
  intro l
  induction l with
  | nil => intro acc d h; exact absurd rfl h
  | cons x t ih =>
      intro acc d _
      cases t with
      | nil => simp [cumsumFrom]
      | cons y s =>
          have h2 := ih (acc + x) (acc + x) (by simp)
          simp only [cumsumFrom] at h2 ⊢
          rw [List.getLastD_cons, h2]
          simp [List.sum_cons]
          ring

lemma cumsumFrom_getLastD (l : List ℕ) (acc : ℕ) (h : l ≠ []) :
    (cumsumFrom acc l).getLastD 0 = acc + l.sum :=
  cumsumFrom_getLastD' l acc 0 h

lemma cumsumFrom_le_mem : ∀ (l : List ℕ) (acc : ℕ) (c : ℕ),
    c ∈ cumsumFrom acc l → acc ≤ c := by
  intro l
  induction l with
  | nil => intro acc c h; simp [cumsumFrom] at h
  | cons x t ih =>
      intro acc c h
      simp only [cumsumFrom, List.mem_cons] at h
      rcases h with h | h
      · omega
      · have := ih (acc + x) c h
        omega

/-- For the non-decreasing cumulative-sum list, the count of entries below a
threshold is the smallest index reaching the threshold: every earlier entry is
strictly below, and the entry at that index (when it exists) is at least the
threshold. -/
lemma cumsumFrom_countP_spec (t : ℚ) : ∀ (l : List ℕ) (acc : ℕ),
    (∀ i, i < (cumsumFrom acc l).countP (fun c : ℕ => decide ((c : ℚ) < t)) →
        (((cumsumFrom acc l).getD i 0 : ℕ) : ℚ) < t) ∧
    ((cumsumFrom acc l).countP (fun c : ℕ => decide ((c : ℚ) < t)) <
        (cumsumFrom acc l).length →
      t ≤ (((cumsumFrom acc l).getD
        ((cumsumFrom acc l).countP (fun c : ℕ => decide ((c : ℚ) < t))) 0 : ℕ) : ℚ)) := by
  intro l
  induction l with
  | nil => intro acc; constructor <;> simp [cumsumFrom]
  | cons x t' ih =>
      intro acc
      simp only [cumsumFrom]
      by_cases hx : ((acc + x : ℕ) : ℚ) < t
      · rw [List.countP_cons_of_pos _ _ (by simpa using hx)]
        refine ⟨?_, ?_⟩
        · intro i hi
          cases i with
          | zero => simpa using hx
          | succ j =>
              simp only [List.getD_cons_succ]
              exact (ih (acc + x)).1 j (by omega)
        · intro hlen
          simp only [List.length_cons] at hlen
          simp only [List.getD_cons_succ]
          exact (ih (acc + x)).2 (by omega)
      · rw [List.countP_cons_of_neg _ _ (by simpa using hx)]
        have hzero : (cumsumFrom (acc + x) t').countP
            (fun c : ℕ => decide ((c : ℚ) < t)) = 0 := by
          rw [List.countP_eq_zero]
          intro c hc
          have h1 : acc + x ≤ c := cumsumFrom_le_mem t' (acc + x) c hc
          have h2 : ¬ ((c : ℚ) < t) := by
            intro h
            exact hx (lt_of_le_of_lt (by exact_mod_cast Nat.cast_le.mpr h1) h)
          simpa using h2
        rw [hzero]
        refine ⟨?_, ?_⟩
        · intro i hi; omega
        · intro _
          simp only [List.getD_cons_zero]
          exact le_of_not_lt (by simpa using hx)

lemma cumsum_ne_nil (hist : List ℕ) (h : hist ≠ []) : cumsum hist ≠ [] := by
  intro hc
  apply h
  have := cumsumFrom_length hist 0
  rw [show cumsumFrom 0 hist = cumsum hist from rfl, hc] at this
  exact List.length_eq_zero.mp this.symm

lemma getLastD_mem {α : Type} : ∀ (l : List α) (d : α), l ≠ [] →
    l.getLastD d ∈ l := by
  intro l
  induction l with
  | nil => intro d h; exact absurd rfl h
  | cons a t ih =>
      intro d _
      rw [List.getLastD_cons]
      cases t with
      | nil => simp
      | cons b s => exact List.mem_cons_of_mem a (ih a (by simp))

lemma calibPercentile_example : calibPercentile [10, 20, 30, 40] (4/5) = 3 := by
  have hcs : cumsum [10, 20, 30, 40] = [10, 30, 60, 100] := by decide
  unfold calibPercentile
  rw [hcs]
  simp only [List.countP, List.countP.go, List.getLastD]
  norm_num

/-! ## Radius query and point-budget calibration sampling (calibrate_batches,
lines 581-590)

`rand_points = points[rand_inds]`
`noise = np.random.normal(scale=self.in_radius / 4, size=rand_points.shape)`
`rand_points += noise.astype(rand_points.dtype)`
`neighbors = tree.query_radius(points[rand_inds], r=self.in_radius)`
`sizes += [len(neighb) for neighb in neighbors]` -/

/-- `KDTree.query_radius`: the indices of all points of the cloud within
Euclidean distance `r` of the center. -/
def radiusQuery (points : List Vec3) (center : Vec3) (r : ℚ) : List ℕ :=
  (points.enum.filter (fun p => decide (sqDist p.2 center ≤ r * r))).map Prod.fst

/-- The neighbor-region sizes recorded by `calibrate_batches` for one cloud,
as the code computes them: the noise-perturbed copies `rand_points` are
computed (line 587) but the radius query of line 588 is centered on the
original `points[rand_inds]`, so `rand_points` is dead. -/
def collectSizes (points : List Vec3) (randInds : List ℕ) (noise : List Vec3)
    (r : ℚ) : List ℕ :=
  let _rand_points := (randInds.zip noise).map (fun p => vadd (points.getD p.1 vzero) p.2)
  randInds.map (fun i => (radiusQuery points (points.getD i vzero) r).length)

/-- Modelled from the spec: the neighbor-region sizes §4.4 prescribes, with
the radius queries centered on the noise-perturbed copies of the sampled
points.  This definition follows the spec's words (for comparison with
`collectSizes`, which follows the code). -/
def collectSizesSpec (points : List Vec3) (randInds : List ℕ) (noise : List Vec3)
    (r : ℚ) : List ℕ :=
  (randInds.zip noise).map
    (fun p => (radiusQuery points (vadd (points.getD p.1 vzero) p.2) r).length)

/-! ## Dense-region subsample guard (spatially_regular_gen, lines 338-341)

`if n > self.batch_limit:`
`    input_inds = np.random.choice(input_inds, size=int(self.batch_limit) - 1, replace=False)`
`    n = input_inds.shape[0]` -/

/-- Python `int()`: truncation of a float (here a rational) toward zero. -/
def pyInt (q : ℚ) : ℤ := if 0 ≤ q then ⌊q⌋ else -⌊-q⌋

/-- The dense-region guard.  The random choice without replacement is passed
in as `rng`: the list of positions `np.random.choice` picked (pairwise
distinct, in range, of size `int(batch_limit) - 1`); when the region does not
exceed the budget the indices pass through unchanged. -/
def denseGuard (B : ℚ) (inds : List ℕ) (rng : List ℕ) : List ℕ :=
  if B < (inds.length : ℚ) then rng.map (fun j => inds.getD j 0) else inds

/-! ## Batch generator (spatially_regular_gen, lines 294-385)

The generator draws `epoch_n` regions; each drawn region (after the dense
guard) is collected (lines 343-350), a full batch is yielded and the
accumulators reset (lines 352-366), non-empty regions are appended
(lines 368-374), the running count advances (line 377), and a non-empty
remainder is flushed after the loop (lines 379-385). -/

/-- A split of the dataset (the `split` string argument). -/
inductive Split
  | training
  | validation
  | test

/-- The fixed number of region draws of one generation pass (lines 234-243):
`epoch_steps * batch_size` for training, `validation_size * batch_size` for
validation and test. -/
def epochN (split : Split) (epoch_steps validation_size batch_size : ℕ) : ℕ :=
  match split with
  | .training => epoch_steps * batch_size
  | .validation => validation_size * batch_size
  | .test => validation_size * batch_size

/-- A cloud's immutable data: coordinates, colors, labels. -/
structure Cloud where
  points : List Vec3
  colors : List Vec3
  labels : List ℕ

/-- One drawn region, after the dense-region guard: the per-point arrays the
generator collects plus the owning cloud index (lines 343-350). -/
structure Region where
  points : List Vec3
  colors : List (Vec3 × Vec3)
  labels : List ℕ
  inds : List ℕ
  cloudInd : ℕ

/-- The four per-point arrays of a region were fancy-indexed by the same
`input_inds`, so they all have that length. -/
abbrev Region.WF (r : Region) : Prop :=
  r.points.length = r.inds.length ∧ r.colors.length = r.inds.length ∧
    r.labels.length = r.inds.length

/-- Region construction from a cloud and the (guarded) query indices
(lines 343-350): centered points, colors stacked with absolute coordinates,
labels (zeros on the test split, remapped through `label_to_idx` otherwise),
and the original indices. -/
def mkRegion (cloud : Cloud) (cloudInd : ℕ) (l2i : ℕ → ℕ) (isTest : Bool)
    (pick : Vec3) (inds : List ℕ) : Region :=
  { points := inds.map (fun i => vsub (cloud.points.getD i vzero) pick)
    colors := inds.map (fun i =>
      (cloud.colors.getD i vzero, vadd (vsub (cloud.points.getD i vzero) pick) pick))
    labels := if isTest then List.replicate inds.length 0
              else inds.map (fun i => l2i (cloud.labels.getD i 0))
    inds := inds
    cloudInd := cloudInd }

/-- The generator's accumulator state: the five concatenation lists and the
running point count `batch_n` (lines 296-303). -/
structure GenState where
  p_list : List (List Vec3)
  c_list : List (List (Vec3 × Vec3))
  pl_list : List (List ℕ)
  pi_list : List (List ℕ)
  ci_list : List ℕ
  batch_n : ℕ

def GenState.empty : GenState := ⟨[], [], [], [], [], 0⟩

/-- One yielded batch (lines 354-359): the concatenated arrays, the per-region
lengths read off `p_list`, and the cloud index per region. -/
structure Batch where
  points : List Vec3
  colors : List (Vec3 × Vec3)
  labels : List ℕ
  lengths : List ℕ
  inds : List ℕ
  cloudInds : List ℕ

/-- `yield (np.concatenate(p_list), ..., np.array([tp.shape[0] for tp in p_list]),
..., np.array(ci_list))`. -/
def emitBatch (s : GenState) : Batch :=
  { points := s.p_list.join
    colors := s.c_list.join
    labels := s.pl_list.join
    lengths := s.p_list.map List.length
    inds := s.pi_list.join
    cloudInds := s.ci_list }

/-- Lines 368-377: a non-empty region is appended to every accumulator; the
running count advances by the region size either way. -/
def appendRegion (s : GenState) (r : Region) : GenState :=
  if 0 < r.inds.length then
    { p_list := s.p_list ++ [r.points]
      c_list := s.c_list ++ [r.colors]
      pl_list := s.pl_list ++ [r.labels]
      pi_list := s.pi_list ++ [r.inds]
      ci_list := s.ci_list ++ [r.cloudInd]
      batch_n := s.batch_n + r.inds.length }
  else
    { s with batch_n := s.batch_n + r.inds.length }

/-- One loop iteration over a drawn region (lines 352-377): if the incoming
region would overflow the budget and the accumulator is non-empty, the current
batch is yielded and the accumulators reset before the region is collected. -/
def genStep (B : ℚ) (s : GenState) (r : Region) : Option Batch × GenState :=
  if B < ((s.batch_n + r.inds.length : ℕ) : ℚ) ∧ 0 < s.batch_n then
    (some (emitBatch s), appendRegion GenState.empty r)
  else
    (none, appendRegion s r)

/-- The generator loop from a given state: the batches yielded, in order, and
the final accumulator state. -/
def runGenFrom (B : ℚ) (s : GenState) : List Region → List Batch × GenState
  | [] => ([], s)
  | r :: rs =>
      ((genStep B s r).1.toList ++ (runGenFrom B (genStep B (s) r).2 rs).1,
       (runGenFrom B (genStep B s r).2 rs).2)

/-- One full generation pass over a list of drawn regions, with the final
flush of a non-empty remainder (lines 379-385). -/
def spatiallyRegularGen (B : ℚ) (regs : List Region) : List Batch :=
  (runGenFrom B GenState.empty regs).1
    ++ if 0 < (runGenFrom B GenState.empty regs).2.batch_n
       then [emitBatch (runGenFrom B GenState.empty regs).2] else []

/-- The per-draw random data of the guarded pipeline: the owning cloud, the
perturbed pick point, the raw radius-query result, and the positions the
dense guard's `np.random.choice` picks. -/
structure GenDraw where
  cloudInd : ℕ
  pick : Vec3
  rawInds : List ℕ
  rng : List ℕ

/-- The region indices after the dense-region guard (lines 338-341). -/
def guardedInds (B : ℚ) (d : GenDraw) : List ℕ := denseGuard B d.rawInds d.rng

/-- One full region draw of the guarded pipeline: guard, then collection. -/
def drawRegion (B : ℚ) (clouds : List Cloud) (l2i : ℕ → ℕ) (isTest : Bool)
    (d : GenDraw) : Region :=
  mkRegion (clouds.getD d.cloudInd ⟨[], [], []⟩) d.cloudInd l2i isTest d.pick
    (guardedInds B d)

/-! ### Generator state invariants -/

/-- Well-formedness of a reachable accumulator state: the five lists have one
entry per appended region, per-region lengths agree across the four array
lists, every appended region is non-empty, and `batch_n` is the total of the
appended region sizes. -/
def SWF (s : GenState) : Prop :=
  s.c_list.length = s.p_list.length ∧
  s.pl_list.length = s.p_list.length ∧
  s.pi_list.length = s.p_list.length ∧
  s.ci_list.length = s.p_list.length ∧
  s.p_list.map List.length = s.pi_list.map List.length ∧
  s.c_list.map List.length = s.pi_list.map List.length ∧
  s.pl_list.map List.length = s.pi_list.map List.length ∧
  (∀ l ∈ s.pi_list, 0 < l.length) ∧
  s.batch_n = (s.pi_list.map List.length).sum

lemma SWF_empty : SWF GenState.empty := by
  refine ⟨rfl, rfl, rfl, rfl, rfl, rfl, rfl, ?_, rfl⟩
  intro l hl
  simp [GenState.empty] at hl

lemma appendRegion_SWF (s : GenState) (r : Region) (hs : SWF s) (hr : r.WF) :
    SWF (appendRegion s r) := by
  obtain ⟨h1, h2, h3, h4, h5, h6, h7, h8, h9⟩ := hs
  obtain ⟨w1, w2, w3⟩ := hr
  unfold appendRegion
  by_cases hn : 0 < r.inds.length
  · rw [if_pos hn]
    refine ⟨by simp [h1], by simp [h2], by simp [h3], by simp [h4],
            by simp [h5, w1], by simp [h6, w2], by simp [h7, w3], ?_, ?_⟩
    · intro l hl
      rcases List.mem_append.mp hl with h | h
      · exact h8 l h
      · rw [List.mem_singleton.mp h]; exact hn
    · simp [h9]
  · rw [if_neg hn]
    exact ⟨h1, h2, h3, h4, h5, h6, h7, h8, by simp at hn; simp [h9, hn]⟩

lemma genStep_SWF (B : ℚ) (s : GenState) (r : Region) (hs : SWF s) (hr : r.WF) :
    SWF ((genStep B s r).2) := by
  unfold genStep
  by_cases hc : B < ((s.batch_n + r.inds.length : ℕ) : ℚ) ∧ 0 < s.batch_n
  · rw [if_pos hc]
    exact appendRegion_SWF GenState.empty r SWF_empty hr
  · rw [if_neg hc]
    exact appendRegion_SWF s r hs hr

lemma SWF_batch_n_zero (s : GenState) (hs : SWF s) (h0 : s.batch_n = 0) :
    s.p_list = [] := by
  obtain ⟨_, _, _, _, h5, _, _, h8, h9⟩ := hs
  have hpi : s.pi_list = [] := by
    cases hpi : s.pi_list with
    | nil => rfl
    | cons a t =>
        exfalso
        have ha : 0 < a.length := h8 a (by rw [hpi]; simp)
        rw [h9, hpi, List.map_cons, List.sum_cons] at h0
        omega
  have : s.p_list.map List.length = [] := by rw [h5, hpi]; rfl
  exact List.map_eq_nil.mp this

lemma emitBatch_SWF (s : GenState) (hs : SWF s) :
    (emitBatch s).points.length = s.batch_n ∧
    (emitBatch s).colors.length = s.batch_n ∧
    (emitBatch s).labels.length = s.batch_n ∧
    (emitBatch s).inds.length = s.batch_n ∧
    (emitBatch s).lengths.sum = s.batch_n ∧
    (emitBatch s).lengths.length = s.p_list.length ∧
    (emitBatch s).cloudInds.length = s.p_list.length := by
  obtain ⟨h1, h2, h3, h4, h5, h6, h7, h8, h9⟩ := hs
  unfold emitBatch
  refine ⟨?_, ?_, ?_, ?_, ?_, by simp, h4⟩
  · simp only [List.length_join, h5, h9]
  · simp only [List.length_join, h6, h9]
  · simp only [List.length_join, h7, h9]
  · simp only [List.length_join, h9]
  · simp only [h5, h9]

/-- Master soundness lemma for the generator loop: any state predicate `P`
preserved by `genStep` over regions satisfying `RW`, such that emission from a
`P`-state with a non-empty accumulator yields a `Q`-batch, gives `P` of the
final state and `Q` of every yielded batch. -/
lemma runGenFrom_sound (B : ℚ) (P : GenState → Prop) (RW : Region → Prop)
    (Q : Batch → Prop)
    (hstep : ∀ s r, P s → RW r → P ((genStep B s r).2))
    (hemit : ∀ s, P s → 0 < s.batch_n → Q (emitBatch s)) :
    ∀ (regs : List Region) (s : GenState), P s → (∀ r ∈ regs, RW r) →
      P ((runGenFrom B s regs).2) ∧ ∀ b ∈ (runGenFrom B s regs).1, Q b := by
  intro regs
  induction regs with
  | nil =>
      intro s hP _
      exact ⟨hP, by intro b hb; simp [runGenFrom] at hb⟩
  | cons r rs ih =>
      intro s hP hRW
      have hRWr : RW r := hRW r (by simp)
      have hRWrs : ∀ x ∈ rs, RW x := fun x hx => hRW x (by simp [hx])
      have hP2 : P ((genStep B s r).2) := hstep s r hP hRWr
      have hrec := ih ((genStep B s r).2) hP2 hRWrs
      refine ⟨hrec.1, ?_⟩
      intro b hb
      simp only [runGenFrom, List.mem_append] at hb
      rcases hb with hb | hb
      · unfold genStep at hb
        by_cases hc : B < ((s.batch_n + r.inds.length : ℕ) : ℚ) ∧ 0 < s.batch_n
        · rw [if_pos hc] at hb
          simp only [Option.toList_some, List.mem_singleton] at hb
          rw [hb]
          exact hemit s hP hc.2
        · rw [if_neg hc] at hb
          simp at hb
      · exact hrec.2 b hb

/-- Soundness of a full generation pass, final flush included. -/
lemma gen_sound (B : ℚ) (P : GenState → Prop) (RW : Region → Prop)
    (Q : Batch → Prop)
    (hstep : ∀ s r, P s → RW r → P ((genStep B s r).2))
    (hemit : ∀ s, P s → 0 < s.batch_n → Q (emitBatch s))
    (h0 : P GenState.empty)
    (regs : List Region) (hr : ∀ r ∈ regs, RW r) :
    ∀ b ∈ spatiallyRegularGen B regs, Q b := by
  have h := runGenFrom_sound B P RW Q hstep hemit regs GenState.empty h0 hr
  intro b hb
  unfold spatiallyRegularGen at hb
  rcases List.mem_append.mp hb with hb | hb
  · exact h.2 b hb
  · by_cases hc : 0 < (runGenFrom B GenState.empty regs).2.batch_n
    · rw [if_pos hc] at hb
      rw [List.mem_singleton.mp hb]
      exact hemit _ h.1 hc
    · rw [if_neg hc] at hb
      simp at hb

/-- The budget invariant of C1's exception clause: whenever the accumulator is
non-empty, either its running count fits the budget or it holds exactly one
region (necessarily the first of its batch). -/
def BInv (B : ℚ) (s : GenState) : Prop :=
  0 < s.batch_n → ((s.batch_n : ℚ) ≤ B ∨ s.p_list.length = 1)

lemma genStep_SWF_BInv (B : ℚ) (s : GenState) (r : Region)
    (hs : SWF s ∧ BInv B s) (hr : r.WF) :
    SWF ((genStep B s r).2) ∧ BInv B ((genStep B s r).2) := by
  refine ⟨genStep_SWF B s r hs.1 hr, ?_⟩
  unfold genStep
  by_cases hc : B < ((s.batch_n + r.inds.length : ℕ) : ℚ) ∧ 0 < s.batch_n
  · rw [if_pos hc]
    intro hbn
    unfold appendRegion GenState.empty at hbn ⊢
    by_cases hn : 0 < r.inds.length
    · rw [if_pos hn] at hbn ⊢
      right
      simp
    · rw [if_neg hn] at hbn
      simp at hbn
      omega
  · rw [if_neg hc]
    intro hbn
    rw [not_and_or] at hc
    unfold appendRegion at hbn ⊢
    by_cases hn : 0 < r.inds.length
    · rw [if_pos hn] at hbn ⊢
      rcases hc with hle | hz
      · left
        simp only []
        push_cast
        exact_mod_cast not_lt.mp hle
      · right
        have hb0 : s.batch_n = 0 := by omega
        have hp : s.p_list = [] := SWF_batch_n_zero s hs.1 hb0
        simp [hp]
    · rw [if_neg hn] at hbn ⊢
      have hr0 : r.inds.length = 0 := by omega
      simp only [hr0, Nat.add_zero] at hbn ⊢
      rcases hc with hle | hz
      · rcases hs.2 hbn with h | h
        · left; exact h
        · right; exact h
      · omega

lemma guardedInds_length_le (B : ℚ) (hB : 1 ≤ B) (d : GenDraw)
    (hrng : B < (d.rawInds.length : ℚ) → d.rng.length = (pyInt B - 1).toNat) :
    ((guardedInds B d).length : ℚ) ≤ B := by
  unfold guardedInds denseGuard
  by_cases hc : B < (d.rawInds.length : ℚ)
  · rw [if_pos hc, List.length_map, hrng hc]
    have h1 : (1 : ℤ) ≤ ⌊B⌋ := Int.le_floor.mpr (by exact_mod_cast hB)
    have hpy : pyInt B = ⌊B⌋ := by
      unfold pyInt
      rw [if_pos (le_trans zero_le_one hB)]
    rw [hpy]
    have h2 : (((⌊B⌋ - 1).toNat : ℤ) : ℚ) = ((⌊B⌋ : ℚ) - 1) := by
      rw [Int.toNat_of_nonneg (by omega)]
      push_cast
      ring
    have h3 : (⌊B⌋ : ℚ) ≤ B := Int.floor_le B
    have h4 : (((⌊B⌋ - 1).toNat : ℤ) : ℚ) ≤ B := by rw [h2]; linarith
    exact_mod_cast h4
  · rw [if_neg hc]
    exact le_of_not_lt hc

lemma mkRegion_WF (cloud : Cloud) (cloudInd : ℕ) (l2i : ℕ → ℕ) (isTest : Bool)
    (pick : Vec3) (inds : List ℕ) :
    (mkRegion cloud cloudInd l2i isTest pick inds).WF := by
  unfold mkRegion
  refine ⟨by simp, by simp, ?_⟩
  cases isTest <;> simp

/-! ## Claim theorems C2 and C3 -/

/-- C2: for every cloud and every point index, the potential value is
monotonically non-decreasing over a generation pass; each region draw adds to
the potentials at the queried indices the Tukey biweight
`w = (1 - d²/r²)²` when `d² ≤ r²` and `w = 0` when `d² > r²`, the added weight
is always `≥ 0`, and the cached per-cloud minimum is recomputed after each
draw. -/
theorem c2_potentials_monotone (pot : List ℚ) (points : List Vec3)
    (ds : List PassDraw) (i : ℕ) (hi : i < pot.length) :
    (∀ r d2, 0 ≤ tukey r d2) ∧
    (∀ r d2, (d2 ≤ r * r → tukey r d2 = (1 - d2 / (r * r)) ^ 2) ∧
      (r * r < d2 → tukey r d2 = 0)) ∧
    (∀ pick r inds, i ∈ inds →
      (updatePotentials pot points pick r inds).getD i 0
        = pot.getD i 0 + tukey r (sqDist (points.getD i vzero) pick)) ∧
    (∀ pick r inds, i ∉ inds →
      (updatePotentials pot points pick r inds).getD i 0 = pot.getD i 0) ∧
    (∀ pick r inds, (drawStep pot points pick r inds).2
        = minPotential (updatePotentials pot points pick r inds)) ∧
    pot.getD i 0 ≤ (runPass pot points ds).getD i 0 := by
  refine ⟨tukey_nonneg, ?_, ?_, ?_, ?_, runPass_getD_le points ds pot i⟩
  · intro r d2
    constructor
    · intro h; simp [tukey, not_lt.mpr h]
    · intro h; simp [tukey, h]
  · intro pick r inds hmem
    unfold updatePotentials
    rw [mapIdx_getD (α := ℚ) 0 pot _ i hi]
    simp [hmem]
  · intro pick r inds hmem
    unfold updatePotentials
    rw [mapIdx_getD (α := ℚ) 0 pot _ i hi]
    simp [hmem]
  · intro pick r inds
    rfl

/-- Witness for C2 at a concrete cloud: two points, one draw covering both. -/
theorem c2_potentials_monotone_witness :
    0 < ([0, 1/2] : List ℚ).length ∧
    ((∀ r d2, 0 ≤ tukey r d2) ∧
    (∀ r d2, (d2 ≤ r * r → tukey r d2 = (1 - d2 / (r * r)) ^ 2) ∧
      (r * r < d2 → tukey r d2 = 0)) ∧
    (∀ pick r inds, 0 ∈ inds →
      (updatePotentials [0, 1/2] [((0:ℚ),(0:ℚ),(0:ℚ)), ((1:ℚ),(0:ℚ),(0:ℚ))] pick r inds).getD 0 0
        = ([0, 1/2] : List ℚ).getD 0 0
          + tukey r (sqDist (([((0:ℚ),(0:ℚ),(0:ℚ)), ((1:ℚ),(0:ℚ),(0:ℚ))] : List Vec3).getD 0 vzero) pick)) ∧
    (∀ pick r inds, 0 ∉ inds →
      (updatePotentials [0, 1/2] [((0:ℚ),(0:ℚ),(0:ℚ)), ((1:ℚ),(0:ℚ),(0:ℚ))] pick r inds).getD 0 0
        = ([0, 1/2] : List ℚ).getD 0 0) ∧
    (∀ pick r inds,
      (drawStep [0, 1/2] [((0:ℚ),(0:ℚ),(0:ℚ)), ((1:ℚ),(0:ℚ),(0:ℚ))] pick r inds).2
        = minPotential (updatePotentials [0, 1/2] [((0:ℚ),(0:ℚ),(0:ℚ)), ((1:ℚ),(0:ℚ),(0:ℚ))] pick r inds)) ∧
    ([0, 1/2] : List ℚ).getD 0 0
      ≤ (runPass [0, 1/2] [((0:ℚ),(0:ℚ),(0:ℚ)), ((1:ℚ),(0:ℚ),(0:ℚ))]
          [⟨((0:ℚ),(0:ℚ),(0:ℚ)), 2, [0, 1]⟩]).getD 0 0) :=
  ⟨by decide,
   c2_potentials_monotone [0, 1/2] [((0:ℚ),(0:ℚ),(0:ℚ)), ((1:ℚ),(0:ℚ),(0:ℚ))]
     [⟨((0:ℚ),(0:ℚ),(0:ℚ)), 2, [0, 1]⟩] 0 (by decide)⟩

/-- C3: the per-layer neighbor-count limit chosen by `calibrate_neighbors` is
the smallest bucket index of the cumulative histogram whose cumulative mass
reaches `keep_ratio` times the layer's total mass, equivalently the number of
buckets whose cumulative mass is strictly below that threshold; on the bucket
counts `[10, 20, 30, 40]` with `keep_ratio = 0.8` the chosen limit is bucket
index 3. -/
theorem c3_neighbor_percentile (hist : List ℕ) (keep : ℚ)
    (hne : hist ≠ []) (hk : keep ≤ 1) :
    calibPercentile hist keep < (cumsum hist).length ∧
    keep * (hist.sum : ℚ)
      ≤ (((cumsum hist).getD (calibPercentile hist keep) 0 : ℕ) : ℚ) ∧
    (∀ i, i < calibPercentile hist keep →
      (((cumsum hist).getD i 0 : ℕ) : ℚ) < keep * (hist.sum : ℚ)) ∧
    calibPercentile hist keep
      = (cumsum hist).countP (fun c : ℕ => decide ((c : ℚ) < keep * (hist.sum : ℚ))) ∧
    calibPercentile [10, 20, 30, 40] (4/5) = 3 := by
  have hlast : (cumsum hist).getLastD 0 = hist.sum := by
    simpa using cumsumFrom_getLastD hist 0 hne
  have hdef : calibPercentile hist keep
      = (cumsum hist).countP (fun c : ℕ => decide ((c : ℚ) < keep * (hist.sum : ℚ))) := by
    unfold calibPercentile
    rw [hlast]
  have hspec :
      (∀ i, i < (cumsum hist).countP
          (fun c : ℕ => decide ((c : ℚ) < keep * (hist.sum : ℚ))) →
        (((cumsum hist).getD i 0 : ℕ) : ℚ) < keep * (hist.sum : ℚ)) ∧
      ((cumsum hist).countP (fun c : ℕ => decide ((c : ℚ) < keep * (hist.sum : ℚ))) <
          (cumsum hist).length →
        keep * (hist.sum : ℚ) ≤ (((cumsum hist).getD
          ((cumsum hist).countP
            (fun c : ℕ => decide ((c : ℚ) < keep * (hist.sum : ℚ)))) 0 : ℕ) : ℚ)) := by
    have h := cumsumFrom_countP_spec (keep * (hist.sum : ℚ)) hist 0
    exact ⟨fun i hi => h.1 i hi, h.2⟩
  have hcount : calibPercentile hist keep < (cumsum hist).length := by
    rw [hdef]
    have hle : (cumsum hist).countP
        (fun c : ℕ => decide ((c : ℚ) < keep * (hist.sum : ℚ))) ≤ (cumsum hist).length :=
      List.countP_le_length _
    rcases lt_or_eq_of_le hle with h | h
    · exact h
    · exfalso
      have hall := List.countP_eq_length.mp h
      have hmem : (cumsum hist).getLastD 0 ∈ cumsum hist :=
        getLastD_mem (cumsum hist) 0 (cumsum_ne_nil hist hne)
      have hsat := hall _ hmem
      rw [hlast] at hsat
      have hlt : ((hist.sum : ℕ) : ℚ) < keep * (hist.sum : ℚ) := by simpa using hsat
      have hge : keep * (hist.sum : ℚ) ≤ (hist.sum : ℚ) := by
        calc keep * (hist.sum : ℚ) ≤ 1 * (hist.sum : ℚ) :=
              mul_le_mul_of_nonneg_right hk (by positivity)
          _ = (hist.sum : ℚ) := one_mul _
      exact absurd hlt (not_lt.mpr hge)
  refine ⟨hcount, ?_, ?_, hdef, calibPercentile_example⟩
  · rw [hdef]
    exact hspec.2 (by rw [← hdef]; exact hcount)
  · intro i hlt
    exact hspec.1 i (by rw [← hdef]; exact hlt)

/-- Witness for C3 at the spec's own example histogram. -/
theorem c3_neighbor_percentile_witness :
    ([10, 20, 30, 40] : List ℕ) ≠ [] ∧ (4/5 : ℚ) ≤ 1 ∧
    (calibPercentile [10, 20, 30, 40] (4/5) < (cumsum [10, 20, 30, 40]).length ∧
    (4/5 : ℚ) * (([10, 20, 30, 40] : List ℕ).sum : ℚ)
      ≤ (((cumsum [10, 20, 30, 40]).getD (calibPercentile [10, 20, 30, 40] (4/5)) 0 : ℕ) : ℚ) ∧
    (∀ i, i < calibPercentile [10, 20, 30, 40] (4/5) →
      (((cumsum [10, 20, 30, 40]).getD i 0 : ℕ) : ℚ)
        < (4/5 : ℚ) * (([10, 20, 30, 40] : List ℕ).sum : ℚ)) ∧
    calibPercentile [10, 20, 30, 40] (4/5)
      = (cumsum [10, 20, 30, 40]).countP
          (fun c : ℕ => decide ((c : ℚ) < (4/5 : ℚ) * (([10, 20, 30, 40] : List ℕ).sum : ℚ))) ∧
    calibPercentile [10, 20, 30, 40] (4/5) = 3) :=
  ⟨by simp, by norm_num,
   c3_neighbor_percentile [10, 20, 30, 40] (4/5) (by simp) (by norm_num)⟩

/-! ## Claim C5: perturbed vs unperturbed query centers in calibrate_batches -/

/-- C5 (code bug): `calibrate_batches` records the sizes of radius queries
centered on the original unperturbed `points[rand_inds]`, not on the computed
noise-perturbed copies `rand_points` the spec prescribes: at the concrete
cloud `[(0,0,0), (5,0,0), (6,0,0)]`, sampled index 0, noise `(5,0,0)` and
radius `3/2`, the code records size 1 while the spec's perturbed-center query
records size 2. -/
theorem c5_unperturbed_centers_bug :
    collectSizes [((0:ℚ),(0:ℚ),(0:ℚ)), ((5:ℚ),(0:ℚ),(0:ℚ)), ((6:ℚ),(0:ℚ),(0:ℚ))]
        [0] [((5:ℚ),(0:ℚ),(0:ℚ))] (3/2) = [1] ∧
    collectSizesSpec [((0:ℚ),(0:ℚ),(0:ℚ)), ((5:ℚ),(0:ℚ),(0:ℚ)), ((6:ℚ),(0:ℚ),(0:ℚ))]
        [0] [((5:ℚ),(0:ℚ),(0:ℚ))] (3/2) = [2] ∧
    collectSizes [((0:ℚ),(0:ℚ),(0:ℚ)), ((5:ℚ),(0:ℚ),(0:ℚ)), ((6:ℚ),(0:ℚ),(0:ℚ))]
        [0] [((5:ℚ),(0:ℚ),(0:ℚ))] (3/2)
      ≠ collectSizesSpec [((0:ℚ),(0:ℚ),(0:ℚ)), ((5:ℚ),(0:ℚ),(0:ℚ)), ((6:ℚ),(0:ℚ),(0:ℚ))]
        [0] [((5:ℚ),(0:ℚ),(0:ℚ))] (3/2) := by
  have h1 : collectSizes [((0:ℚ),(0:ℚ),(0:ℚ)), ((5:ℚ),(0:ℚ),(0:ℚ)), ((6:ℚ),(0:ℚ),(0:ℚ))]
      [0] [((5:ℚ),(0:ℚ),(0:ℚ))] (3/2) = [1] := by
    simp only [collectSizes, radiusQuery, List.enum, sqDist, sqNorm, vsub, vadd, vzero,
      List.map, List.zip, List.getD, List.enumFrom, List.filter]
    norm_num
  have h2 : collectSizesSpec [((0:ℚ),(0:ℚ),(0:ℚ)), ((5:ℚ),(0:ℚ),(0:ℚ)), ((6:ℚ),(0:ℚ),(0:ℚ))]
      [0] [((5:ℚ),(0:ℚ),(0:ℚ))] (3/2) = [2] := by
    simp only [collectSizesSpec, radiusQuery, List.enum, sqDist, sqNorm, vsub, vadd, vzero,
      List.map, List.zip, List.getD, List.enumFrom, List.filter]
    norm_num
  refine ⟨h1, h2, ?_⟩
  rw [h1, h2]
  simp

/-! ## Claim C6: the dense-region guard -/

/-- C6: whenever the radius query returns `n > batch_limit` indices, the
guard subsamples without replacement to exactly `int(batch_limit) - 1`
indices, a strict subset of the returned index set. -/
theorem c6_dense_region_subsample (B : ℚ) (inds rng : List ℕ)
    (hB : 1 ≤ B) (hn : B < (inds.length : ℚ)) (hnodup : inds.Nodup)
    (hrlen : rng.length = (pyInt B - 1).toNat) (hrnodup : rng.Nodup)
    (hrbound : ∀ j ∈ rng, j < inds.length) :
    (denseGuard B inds rng).length = (pyInt B - 1).toNat ∧
    (denseGuard B inds rng).length < inds.length ∧
    (denseGuard B inds rng).Nodup ∧
    (∀ x ∈ denseGuard B inds rng, x ∈ inds) ∧
    (denseGuard B inds rng).toFinset ⊂ inds.toFinset := by
  have hg : denseGuard B inds rng = rng.map (fun j => inds.getD j 0) := by
    unfold denseGuard
    rw [if_pos hn]
  have hfloor1 : (1 : ℤ) ≤ ⌊B⌋ := Int.le_floor.mpr (by exact_mod_cast hB)
  have hfloorn : ⌊B⌋ < (inds.length : ℤ) := Int.floor_lt.mpr (by exact_mod_cast hn)
  have hpy : pyInt B = ⌊B⌋ := by
    unfold pyInt
    rw [if_pos (le_trans zero_le_one hB)]
  have hlen : (denseGuard B inds rng).length = (pyInt B - 1).toNat := by
    rw [hg, List.length_map, hrlen]
  have hlt : (denseGuard B inds rng).length < inds.length := by
    rw [hlen, hpy]
    omega
  have hsub : ∀ x ∈ denseGuard B inds rng, x ∈ inds := by
    rw [hg]
    intro x hx
    rcases List.mem_map.mp hx with ⟨j, hj, hfx⟩
    have hjlt := hrbound j hj
    rw [← hfx, List.getD_eq_getElem?_getD, List.getElem?_eq_getElem hjlt]
    exact List.getElem_mem hjlt
  have hnd : (denseGuard B inds rng).Nodup := by
    rw [hg]
    refine List.Nodup.map_on ?_ hrnodup
    intro j hj k hk heq
    have hjlt := hrbound j hj
    have hklt := hrbound k hk
    rw [List.getD_eq_getElem?_getD, List.getElem?_eq_getElem hjlt,
        List.getD_eq_getElem?_getD, List.getElem?_eq_getElem hklt] at heq
    simp only [Option.getD_some] at heq
    exact (@List.Nodup.getElem_inj_iff ℕ inds hnodup j hjlt k hklt).mp heq
  refine ⟨hlen, hlt, hnd, hsub, ?_⟩
  rw [Finset.ssubset_def]
  constructor
  · intro x hx
    rw [List.mem_toFinset] at hx
    rw [List.mem_toFinset]
    exact hsub x hx
  · intro hcon
    have hc1 : (denseGuard B inds rng).toFinset.card = (denseGuard B inds rng).length :=
      List.toFinset_card_of_nodup hnd
    have hc2 : inds.toFinset.card = inds.length := List.toFinset_card_of_nodup hnodup
    have := Finset.card_le_card hcon
    omega

/-- Witness for C6: budget `B = 3`, four returned indices, the guard keeps
`int(3) - 1 = 2` of them. -/
theorem c6_dense_region_subsample_witness :
    ((1:ℚ) ≤ 3 ∧ (3:ℚ) < (([10, 20, 30, 40] : List ℕ).length : ℚ) ∧
      ([0, 2] : List ℕ).length = (pyInt 3 - 1).toNat) ∧
    ((denseGuard 3 [10, 20, 30, 40] [0, 2]).length = (pyInt 3 - 1).toNat ∧
     (denseGuard 3 [10, 20, 30, 40] [0, 2]).length < ([10, 20, 30, 40] : List ℕ).length ∧
     (denseGuard 3 [10, 20, 30, 40] [0, 2]).Nodup ∧
     (∀ x ∈ denseGuard 3 [10, 20, 30, 40] [0, 2], x ∈ ([10, 20, 30, 40] : List ℕ)) ∧
     (denseGuard 3 [10, 20, 30, 40] [0, 2]).toFinset ⊂
       ([10, 20, 30, 40] : List ℕ).toFinset) :=
  ⟨⟨by norm_num, by norm_num,
    by rw [show pyInt 3 = 3 from by norm_num [pyInt]]; decide⟩,
   c6_dense_region_subsample 3 [10, 20, 30, 40] [0, 2]
     (by norm_num) (by norm_num) (by decide)
     (by rw [show pyInt 3 = 3 from by norm_num [pyInt]]; decide) (by decide)
     (by decide)⟩

/-! ## Claims C1, C7, C9, C10: the batch assembly loop -/

/-- C1: over the fixed number of draws of a pass, a batch is emitted at a step
exactly when the incoming region of size `n` satisfies
`batch_n + n > batch_limit` with a non-empty accumulator; the pass flushes a
non-empty remainder as a final batch; and every emitted batch's total point
count is `≤ batch_limit`, except possibly a batch consisting of a single
region. -/
theorem c1_batch_emission (B : ℚ) (es vs bs : ℕ) (split : Split)
    (draw : ℕ → Region) (hwf : ∀ i, (draw i).WF) :
    (∀ s r, ((genStep B s r).1.isSome ↔
      (B < ((s.batch_n + r.inds.length : ℕ) : ℚ) ∧ 0 < s.batch_n))) ∧
    (spatiallyRegularGen B ((List.range (epochN split es vs bs)).map draw)
      = (runGenFrom B GenState.empty ((List.range (epochN split es vs bs)).map draw)).1
        ++ if 0 < (runGenFrom B GenState.empty
              ((List.range (epochN split es vs bs)).map draw)).2.batch_n
           then [emitBatch (runGenFrom B GenState.empty
              ((List.range (epochN split es vs bs)).map draw)).2]
           else []) ∧
    (∀ b ∈ spatiallyRegularGen B ((List.range (epochN split es vs bs)).map draw),
      ((b.points.length : ℚ) ≤ B ∨ b.lengths.length = 1)) := by
  refine ⟨?_, rfl, ?_⟩
  · intro s r
    unfold genStep
    by_cases hc : B < ((s.batch_n + r.inds.length : ℕ) : ℚ) ∧ 0 < s.batch_n
    · rw [if_pos hc]; simpa using hc
    · rw [if_neg hc]; simpa using hc
  · refine gen_sound B (fun s => SWF s ∧ BInv B s) Region.WF
      (fun b => (b.points.length : ℚ) ≤ B ∨ b.lengths.length = 1)
      (genStep_SWF_BInv B) ?_ ⟨SWF_empty, by intro h; simp [GenState.empty] at h⟩ _ ?_
    · intro s hs hbn
      have hprops := emitBatch_SWF s hs.1
      rcases hs.2 hbn with h | h
      · left; rw [hprops.1]; exact h
      · right
        have : (emitBatch s).lengths.length = s.p_list.length := hprops.2.2.2.2.2.1
        rw [this, h]
    · intro r hr
      rcases List.mem_map.mp hr with ⟨i, _, hir⟩
      rw [← hir]
      exact hwf i

/-- A concrete region fixture for the witnesses: two points of one cloud. -/
def wRegion : Region :=
  { points := [((0:ℚ),(0:ℚ),(0:ℚ)), ((1:ℚ),(0:ℚ),(0:ℚ))]
    colors := [(((0:ℚ),(0:ℚ),(0:ℚ)), ((0:ℚ),(0:ℚ),(0:ℚ))),
               (((0:ℚ),(0:ℚ),(0:ℚ)), ((1:ℚ),(0:ℚ),(0:ℚ)))]
    labels := [0, 0]
    inds := [0, 1]
    cloudInd := 0 }

lemma wRegion_WF : wRegion.WF := ⟨rfl, rfl, rfl⟩

/-- Witness for C1: one training draw of the two-point region under budget 10. -/
theorem c1_batch_emission_witness :
    (∀ i : ℕ, ((fun _ => wRegion) i : Region).WF) ∧
    ((∀ s r, ((genStep 10 s r).1.isSome ↔
      ((10:ℚ) < ((s.batch_n + r.inds.length : ℕ) : ℚ) ∧ 0 < s.batch_n))) ∧
    (spatiallyRegularGen 10 ((List.range (epochN .training 1 1 1)).map (fun _ => wRegion))
      = (runGenFrom 10 GenState.empty
            ((List.range (epochN .training 1 1 1)).map (fun _ => wRegion))).1
        ++ if 0 < (runGenFrom 10 GenState.empty
              ((List.range (epochN .training 1 1 1)).map (fun _ => wRegion))).2.batch_n
           then [emitBatch (runGenFrom 10 GenState.empty
              ((List.range (epochN .training 1 1 1)).map (fun _ => wRegion))).2]
           else []) ∧
    (∀ b ∈ spatiallyRegularGen 10
        ((List.range (epochN .training 1 1 1)).map (fun _ => wRegion)),
      ((b.points.length : ℚ) ≤ 10 ∨ b.lengths.length = 1))) :=
  ⟨fun _ => wRegion_WF,
   c1_batch_emission 10 1 1 1 .training (fun _ => wRegion) (fun _ => wRegion_WF)⟩

/-- C7: every emitted batch's per-region length array sums to the common row
count of the stacked points, features, labels and original-index arrays; the
length array and the cloud-index array have the same length `R`; and `R ≥ 1`. -/
theorem c7_batch_invariants (B : ℚ) (regs : List Region)
    (hwf : ∀ r ∈ regs, r.WF) :
    ∀ b ∈ spatiallyRegularGen B regs,
      b.lengths.sum = b.points.length ∧
      b.colors.length = b.points.length ∧
      b.labels.length = b.points.length ∧
      b.inds.length = b.points.length ∧
      b.lengths.length = b.cloudInds.length ∧
      0 < b.lengths.length := by
  refine gen_sound B SWF Region.WF _ (fun s r hs hr => genStep_SWF B s r hs hr)
    ?_ SWF_empty regs hwf
  intro s hs hbn
  have hprops := emitBatch_SWF s hs
  obtain ⟨e1, e2, e3, e4, e5, e6, e7⟩ := hprops
  have hplen : 0 < s.p_list.length := by
    by_contra hcon
    have hp : s.p_list = [] := List.length_eq_zero.mp (by omega)
    obtain ⟨_, _, _, _, h5, _, _, _, h9⟩ := hs
    have hpi : s.pi_list.map List.length = [] := by rw [← h5, hp]; rfl
    have hpinil : s.pi_list = [] := List.map_eq_nil_iff.mp hpi
    rw [h9, hpinil] at hbn
    simp at hbn
  exact ⟨by rw [e5, e1], by rw [e2, e1], by rw [e3, e1], by rw [e4, e1],
         by rw [e6, e7], by rw [e6]; exact hplen⟩

/-- Witness for C7: a pass over one two-point region under budget 10. -/
theorem c7_batch_invariants_witness :
    (∀ r ∈ [wRegion], r.WF) ∧
    (∀ b ∈ spatiallyRegularGen 10 [wRegion],
      b.lengths.sum = b.points.length ∧
      b.colors.length = b.points.length ∧
      b.labels.length = b.points.length ∧
      b.inds.length = b.points.length ∧
      b.lengths.length = b.cloudInds.length ∧
      0 < b.lengths.length) :=
  ⟨fun r hr => (List.mem_singleton.mp hr) ▸ wRegion_WF,
   c7_batch_invariants 10 [wRegion]
     (fun r hr => (List.mem_singleton.mp hr) ▸ wRegion_WF)⟩

/-- C9: a zero-size region leaves the generator state unchanged — nothing is
appended, the running count is unchanged, and no batch is emitted.  (The
hypothesis `batch_n ≤ batch_limit` holds of every state the guarded pipeline
reaches; see the invariant of C10.) -/
theorem c9_zero_size_region (B : ℚ) (s : GenState) (r : Region)
    (hs : (s.batch_n : ℚ) ≤ B) (hr : r.inds.length = 0) :
    genStep B s r = (none, s) := by
  have hc : ¬ (B < ((s.batch_n + r.inds.length : ℕ) : ℚ) ∧ 0 < s.batch_n) := by
    rintro ⟨h1, _⟩
    rw [hr, Nat.add_zero] at h1
    exact absurd h1 (not_lt.mpr hs)
  unfold genStep
  rw [if_neg hc]
  have happ : appendRegion s r = s := by
    unfold appendRegion
    rw [if_neg (by omega)]
    cases s
    simp [hr]
  rw [happ]

/-- Witness for C9: a state holding one one-point region under budget 5
processes an empty region with no state change. -/
theorem c9_zero_size_region_witness :
    (((⟨[[((0:ℚ),(0:ℚ),(0:ℚ))]], [[(((0:ℚ),(0:ℚ),(0:ℚ)), ((0:ℚ),(0:ℚ),(0:ℚ)))]],
         [[0]], [[5]], [3], 1⟩ : GenState).batch_n : ℚ) ≤ 5 ∧
      (⟨[], [], [], [], 0⟩ : Region).inds.length = 0) ∧
    genStep 5 ⟨[[((0:ℚ),(0:ℚ),(0:ℚ))]], [[(((0:ℚ),(0:ℚ),(0:ℚ)), ((0:ℚ),(0:ℚ),(0:ℚ)))]],
        [[0]], [[5]], [3], 1⟩ ⟨[], [], [], [], 0⟩
      = (none, ⟨[[((0:ℚ),(0:ℚ),(0:ℚ))]], [[(((0:ℚ),(0:ℚ),(0:ℚ)), ((0:ℚ),(0:ℚ),(0:ℚ)))]],
        [[0]], [[5]], [3], 1⟩) :=
  ⟨⟨by norm_num, rfl⟩,
   c9_zero_size_region 5 _ _ (by norm_num) rfl⟩

/-- C10 (implicit): after the dense-region guard every region has size
`≤ batch_limit`, hence (for `batch_limit ≥ 1`) every batch the guarded
pipeline emits — single-region batches and the final flushed remainder
included — has total point count `≤ batch_limit`; the spec's "single
oversized first region" exception never occurs. -/
theorem c10_budget_never_exceeded (B : ℚ) (clouds : List Cloud) (l2i : ℕ → ℕ)
    (isTest : Bool) (draws : List GenDraw) (hB : 1 ≤ B)
    (hrng : ∀ d ∈ draws, B < (d.rawInds.length : ℚ) →
      d.rng.length = (pyInt B - 1).toNat) :
    (∀ d ∈ draws, ((guardedInds B d).length : ℚ) ≤ B) ∧
    (∀ b ∈ spatiallyRegularGen B (draws.map (drawRegion B clouds l2i isTest)),
      (b.points.length : ℚ) ≤ B) := by
  have hguard : ∀ d ∈ draws, ((guardedInds B d).length : ℚ) ≤ B :=
    fun d hd => guardedInds_length_le B hB d (hrng d hd)
  refine ⟨hguard, ?_⟩
  refine gen_sound B (fun s => SWF s ∧ (s.batch_n : ℚ) ≤ B)
    (fun r => r.WF ∧ ((r.inds.length : ℚ) ≤ B))
    (fun b => (b.points.length : ℚ) ≤ B) ?_ ?_
    ⟨SWF_empty, by simpa [GenState.empty] using le_trans zero_le_one hB⟩ _ ?_
  · intro s r hs hr
    refine ⟨genStep_SWF B s r hs.1 hr.1, ?_⟩
    unfold genStep
    by_cases hc : B < ((s.batch_n + r.inds.length : ℕ) : ℚ) ∧ 0 < s.batch_n
    · rw [if_pos hc]
      unfold appendRegion GenState.empty
      by_cases hn : 0 < r.inds.length
      · rw [if_pos hn]
        simpa using hr.2
      · rw [if_neg hn]
        simpa using hr.2
    · rw [if_neg hc]
      rw [not_and_or] at hc
      unfold appendRegion
      have hgoal : ((s.batch_n + r.inds.length : ℕ) : ℚ) ≤ B := by
        rcases hc with hle | hz
        · exact not_lt.mp hle
        · have hb0 : s.batch_n = 0 := by omega
          rw [hb0, Nat.zero_add]
          exact hr.2
      by_cases hn : 0 < r.inds.length
      · rw [if_pos hn]; exact hgoal
      · rw [if_neg hn]; exact hgoal
  · intro s hs hbn
    have hprops := emitBatch_SWF s hs.1
    rw [hprops.1]
    exact hs.2
  · intro r hrm
    rcases List.mem_map.mp hrm with ⟨d, hd, hdr⟩
    refine ⟨hdr ▸ mkRegion_WF _ _ _ _ _ _, ?_⟩
    rw [← hdr]
    exact hguard d hd

/-- Witness for C10: one draw of four raw indices under budget 3; the guard
keeps 2 of them and the pass emits a single batch of 2 points. -/
theorem c10_budget_never_exceeded_witness :
    ((1:ℚ) ≤ 3 ∧
      (∀ d ∈ [(⟨0, vzero, [0, 1, 2, 3], [0, 2]⟩ : GenDraw)],
        (3:ℚ) < (d.rawInds.length : ℚ) → d.rng.length = (pyInt 3 - 1).toNat)) ∧
    ((∀ d ∈ [(⟨0, vzero, [0, 1, 2, 3], [0, 2]⟩ : GenDraw)],
        ((guardedInds 3 d).length : ℚ) ≤ 3) ∧
     (∀ b ∈ spatiallyRegularGen 3
        (([(⟨0, vzero, [0, 1, 2, 3], [0, 2]⟩ : GenDraw)]).map
          (drawRegion 3 [] id false)),
       (b.points.length : ℚ) ≤ 3)) :=
  ⟨⟨by norm_num,
    by
      intro d hd hlt
      rw [List.mem_singleton.mp hd]
      rw [show pyInt 3 = 3 from by norm_num [pyInt]]
      decide⟩,
   c10_budget_never_exceeded 3 [] id false [⟨0, vzero, [0, 1, 2, 3], [0, 2]⟩]
     (by norm_num)
     (by
      intro d hd hlt
      rw [List.mem_singleton.mp hd]
      rw [show pyInt 3 = 3 from by norm_num [pyInt]]
      decide)⟩

/-! ## Claim C8: per-point loss weights (tf_segmentation_inputs, lines 715-718)

`min_len = tf.reduce_min(stacks_lengths, keep_dims=True)`
`batch_weights = tf.cast(min_len, tf.float32) / tf.cast(stacks_lengths, tf.float32)`
`stacked_weights = tf.gather(batch_weights, batch_inds)` -/

/-- Modelled from the spec: `tf_get_batch_inds` lives in the external
`custom_dataset` collaborator, not in this repository's source file.  Per the
spec, it is the per-point batch-row index: region `j` of length `L`
contributes `L` copies of `j`. -/
def tf_get_batch_inds (lengths : List ℕ) : List ℕ :=
  lengths.enum.bind (fun p => List.replicate p.2 p.1)

/-- `tf.reduce_min` over a non-empty integer vector. -/
def reduceMin : List ℕ → ℕ
  | [] => 0
  | x :: xs => xs.foldl min x

/-- `batch_weights = min_len / stacks_lengths`, one weight per region. -/
def batchWeights (lengths : List ℕ) : List ℚ :=
  lengths.map (fun L : ℕ => (reduceMin lengths : ℚ) / (L : ℚ))

/-- `stacked_weights = tf.gather(batch_weights, batch_inds)`: the per-point
loss weights. -/
def stackedWeights (lengths : List ℕ) : List ℚ :=
  (tf_get_batch_inds lengths).map (fun b => (batchWeights lengths).getD b 0)

/-- C8: the per-point loss weight equals
`min(region_lengths) / region_length_of_the_owning_region`, the same value
broadcast to every point of a region. -/
theorem c8_loss_weights (lengths : List ℕ) :
    stackedWeights lengths
      = lengths.enum.bind
          (fun p => List.replicate p.2 ((reduceMin lengths : ℚ) / (p.2 : ℚ))) := by
  unfold stackedWeights tf_get_batch_inds
  rw [List.map_bind]
  apply List.bind_congr
  intro p hp
  rw [List.map_replicate]
  congr 1
  have hget : lengths[p.1]? = some p.2 := List.mem_enum_iff_getElem?.mp hp
  unfold batchWeights
  rw [List.getD_eq_getElem?_getD, List.getElem?_map, hget]
  rfl

/-! ## Claim C4: which limits the constructor writes back (lines 92-96)

`self.batch_limit = self.calibrate_batches()`
`self.neighborhood_limits = [26, 31, 38, 41, 39]`
`self.neighborhood_limits = [int(l * self.density_parameter // 5) for l in self.neighborhood_limits]` -/

/-- `np.sum(np.cumsum(rand_shapes) < lim)` (line 607). -/
def cumsumQlt (shapes : List ℕ) (lim : ℚ) : ℕ :=
  (cumsum shapes).countP (fun c : ℕ => decide ((c : ℚ) < lim))

/-- One iteration of the proportional controller of `calibrate_batches`
(lines 604-611), on the state `(estim_b, lim)`; the subset `np.random.choice`
drew this iteration is passed in as `shapes`. -/
def controllerStep (bs : ℚ) (shapes : List ℕ) (st : ℚ × ℚ) (i : ℕ) : ℚ × ℚ :=
  let b : ℚ := (cumsumQlt shapes st.2 : ℕ)
  let estim := st.1 + (b - st.1) / ((min (i + 1) 100 : ℕ) : ℚ)
  (estim, st.2 + 10 * (bs - estim))

/-- `max_b` (lines 595-601): the first index at which the running sum of the
sorted sizes exceeds `lim`, or 0 if it never does. -/
def maxB (sorted : List ℕ) (lim : ℚ) : ℕ :=
  let j := (cumsum sorted).findIdx (fun c : ℕ => decide (lim < (c : ℚ)))
  if j < (cumsum sorted).length then j else 0

/-- `calibrate_batches` (lines 573-612): sort the recorded sizes, start from
`lim = max_size * batch_size`, and run the proportional controller for 10000
iterations; the drawn random subsets are passed in as `randShapes`.  The
returned `lim` is the point budget. -/
def calibrateBatches (sizes : List ℕ) (bs : ℚ) (randShapes : ℕ → List ℕ) : ℚ :=
  let sorted := sizes.mergeSort (fun a b => a ≤ b)
  let lim0 : ℚ := ((sorted.getLastD 0 : ℕ) : ℚ) * bs
  ((List.range 10000).foldl (fun st i => controllerStep bs (randShapes i) st i)
    (0, lim0)).2

/-- The per-layer limits the constructor actually installs (lines 94-95): the
hardcoded list `[26, 31, 38, 41, 39]`, each entry scaled by
`int(l * density_parameter // 5)` (float floor-division, then `int()`). -/
def hardcodedNeighborhoodLimits (dp : ℚ) : List ℤ :=
  [26, 31, 38, 41, 39].map (fun l : ℕ => ⌊((l : ℚ) * dp) / 5⌋)

/-- The two limits held after construction. -/
structure InitLimits where
  batch_limit : ℚ
  neighborhood_limits : List ℤ

/-- What `SensatUrbanDataset.__init__` writes back (lines 92-95): the batch
point budget from `calibrate_batches`, and the hardcoded scaled neighbor
limits. -/
def datasetInitLimits (sizes : List ℕ) (bs : ℚ) (randShapes : ℕ → List ℕ)
    (dp : ℚ) : InitLimits :=
  { batch_limit := calibrateBatches sizes bs randShapes
    neighborhood_limits := hardcodedNeighborhoodLimits dp }

/-- C4 fails on the code: the constructor's neighbor limits are not the output
of `calibrate_neighbors` — at density parameter 5 the constructor installs
`[26, 31, 38, 41, 39]` no matter what the data statistics are, while
`calibrate_neighbors` on five layers of histogram `[10, 20, 30, 40]` (with the
default keep ratio 0.8) returns `[3, 3, 3, 3, 3]`. -/
theorem c4_init_limits_counterexample :
    (datasetInitLimits [] 0 (fun _ => []) 5).neighborhood_limits
      ≠ (calibrateNeighborsLimits (List.replicate 5 [10, 20, 30, 40]) (4/5)).map
          (fun n : ℕ => (n : ℤ)) := by
  have h1 : (datasetInitLimits [] 0 (fun _ => []) 5).neighborhood_limits
      = hardcodedNeighborhoodLimits 5 := rfl
  have h2 : hardcodedNeighborhoodLimits 5 = [26, 31, 38, 41, 39] := by
    unfold hardcodedNeighborhoodLimits
    norm_num
  have h3 : calibrateNeighborsLimits (List.replicate 5 [10, 20, 30, 40]) (4/5)
      = [3, 3, 3, 3, 3] := by
    unfold calibrateNeighborsLimits
    rw [List.map_replicate, calibPercentile_example]
    rfl
  rw [h1, h2, h3]
  decide

/-- C4 amended: before steady-state generation the constructor writes back the
point budget as the output of `calibrate_batches`, but the per-layer
neighbor-count limits are the hardcoded list `[26, 31, 38, 41, 39]` scaled by
`int(l * density_parameter // 5)` — independent of all calibration data;
`calibrate_neighbors` exists but is not invoked by the constructor. -/
theorem c4_init_limits_amended (sizes : List ℕ) (bs : ℚ)
    (randShapes : ℕ → List ℕ) (dp : ℚ) :
    (datasetInitLimits sizes bs randShapes dp).batch_limit
      = calibrateBatches sizes bs randShapes ∧
    (datasetInitLimits sizes bs randShapes dp).neighborhood_limits
      = hardcodedNeighborhoodLimits dp ∧
    (∀ (sizes2 : List ℕ) (bs2 : ℚ) (randShapes2 : ℕ → List ℕ),
      (datasetInitLimits sizes2 bs2 randShapes2 dp).neighborhood_limits
        = (datasetInitLimits sizes bs randShapes dp).neighborhood_limits) :=
  ⟨by simp only [datasetInitLimits], by simp only [datasetInitLimits],
   fun _ _ _ => by simp only [datasetInitLimits]⟩

end SensatUrban
